import Mathlib

/-!
Verification of the `rolling_hash` delta-encoding engine.

The Rust sources (`src/rollsum.rs`, `src/signature.rs`, `src/lib.rs`) are
embedded shallowly:

* machine integers become `Nat` with explicit reduction modulo `2^32`
  (the `Wrapping<u32>` fields of `Rollsum`) or modulo `2^16` (the `u16`
  offsets and lengths of the deltas and the signature counters), matching
  Rust's wrapping semantics;
* `i32` values that provably stay far below `2^31` (the scanner's
  `consumed_block_index`) become `Int`;
* the byte sources (`Cursor<&[u8]>` / `dyn Read`) become `List Nat`
  together with an explicit model of `Read::read` into a reused
  fixed-size buffer, which keeps the buffer's stale suffix on a short
  read exactly as the Rust `read` does;
* operations that can panic (out-of-bounds slicing) or loop forever
  (the scanner's unhandled weak-match/no-strong-match branch) return
  `Option`, with `none` for the panicking / diverging executions.
-/

namespace RollingHash

/-- `2^32`, the modulus of the wrapping `u32` arithmetic in `rollsum.rs`. -/
def W32 : Nat := 4294967296

/-- `2^16`, the modulus of the `u16` arithmetic in `lib.rs` / `signature.rs`. -/
def U16 : Nat := 65536

/-- Wrapping `u32` addition (`Wrapping<u32> + Wrapping<u32>`). -/
def wadd (a b : Nat) : Nat := (a + b) % W32

/-- Wrapping `u32` subtraction (`Wrapping<u32> - Wrapping<u32>`). -/
def wsub (a b : Nat) : Nat := (a + (W32 - b % W32)) % W32

/-- Wrapping `u32` multiplication (`Wrapping<u32> * Wrapping<u32>`). -/
def wmul (a b : Nat) : Nat := (a * b) % W32

/-- Wrapping `u16` addition. -/
def add16 (a b : Nat) : Nat := (a + b) % U16

/-- Wrapping `u16` subtraction. -/
def sub16 (a b : Nat) : Nat := (a + (U16 - b % U16)) % U16

/-- Wrapping `u16` multiplication. -/
def mul16 (a b : Nat) : Nat := (a * b) % U16

/-- The `i32 as u16` cast used on `consumed_block_index` in `lib.rs`. -/
def i32ToU16 (x : Int) : Nat := (x % 65536).toNat

/-- The `usize` expression `x - 1` followed by an `as u16` cast
(`((consumed_block_index + 1) as usize * block_size - 1) as u16` in
`check_diffs`): for `x = 0` the `usize` subtraction wraps to `2^64 - 1`,
whose low 16 bits are all ones. -/
def usizeSubOneU16 (x : Nat) : Nat := if x = 0 then 65535 else (x - 1) % U16

/-- `rollsum.rs`: the state of the Adler-style rolling checksum.
`s` and `ss` are the two `Wrapping<u32>` accumulators, kept reduced
modulo `2^32`; `block_size` is the `usize` window width. -/
structure Rollsum where
  s : Nat
  ss : Nat
  block_size : Nat
deriving Repr, DecidableEq

/-- `rollsum.rs`: the error enum (`Error::BatchRollError`). -/
inductive RollsumError where
  | BatchRollError : RollsumError
deriving Repr, DecidableEq

/-- The accumulation loop of `Rollsum::new`: for each byte,
`s += byte; ss += s; block_size += 1`. -/
def rollsumGo (s ss block_size : Nat) : List Nat → Rollsum
  | [] => { s := s, ss := ss, block_size := block_size }
  | byte :: rest =>
      rollsumGo (wadd s byte) (wadd ss (wadd s byte)) (block_size + 1) rest

/-- `Rollsum::new`: fold the whole buffer starting from zeroed state. -/
def Rollsum.new (buf : List Nat) : Rollsum := rollsumGo 0 0 0 buf

/-- `Rollsum::digest`: `self.ss.0 << 16 | self.s.0` on `u32` — the shift
wraps modulo `2^32` and neither operand is masked before the `or`. -/
def Rollsum.digest (rs : Rollsum) : Nat := ((rs.ss <<< 16) % W32) ||| rs.s

/-- `Rollsum::roll_hash`: slide the window by one byte.  With
`some new_byte` the width stays constant; with `none` the width shrinks. -/
def Rollsum.roll_hash (rs : Rollsum) (new_byte : Option Nat) (old_byte : Nat) :
    Rollsum :=
  let s1 := wsub rs.s old_byte
  let ss1 := wsub rs.ss (wmul (rs.block_size % W32) old_byte)
  match new_byte with
  | some nb =>
      { s := wadd s1 nb, ss := wadd ss1 (wadd s1 nb),
        block_size := rs.block_size }
  | none => { s := s1, ss := ss1, block_size := rs.block_size - 1 }

/-- The accumulation loop of `Rollsum::batch_roll` (same body as the
loop in `Rollsum::new`, but starting from `s = ss = 0` with the width
untouched). -/
def batchGo (s ss : Nat) : List Nat → Nat × Nat
  | [] => (s, ss)
  | byte :: rest => batchGo (wadd s byte) (wadd ss (wadd s byte)) rest

/-- `Rollsum::batch_roll`: rebuild `s`/`ss` from scratch over `buffer`;
if `buffer.len() != self.block_size` it returns `Err(BatchRollError)`
without touching the state.  The pair returns the state as seen by the
caller after the call, plus the error if any. -/
def Rollsum.batch_roll (rs : Rollsum) (buffer : List Nat) :
    Rollsum × Option RollsumError :=
  if buffer.length ≠ rs.block_size then
    (rs, some RollsumError.BatchRollError)
  else
    let p := batchGo 0 0 buffer
    ({ s := p.1, ss := p.2, block_size := rs.block_size }, none)

/-- `signature.rs`: a strong hash of one block (`BlockHash`). -/
structure BlockHash where
  block_index : Nat
  hash : List Nat
deriving Repr, DecidableEq

/-- `signature.rs`: the file signature.  The `HashMap<u32, Vec<BlockHash>>`
becomes an association list (the map is only ever queried by key, never
iterated, so entry order is irrelevant); `blocks` and `file_size` are the
`u16` counters, kept reduced modulo `2^16`. -/
structure Signature where
  chunk_hashes : List (Nat × List BlockHash)
  block_size : Nat
  blocks : Nat
  file_size : Nat
deriving Repr, DecidableEq

/-- `Signature::new`. -/
def Signature.new (block_size : Nat) : Signature :=
  { chunk_hashes := [], block_size := block_size, blocks := 0, file_size := 0 }

/-- The `chunk_hashes.entry(key).or_insert(Vec::new()).push(bh)` update:
append to the existing bucket, or create a fresh singleton bucket. -/
def insertHash (m : List (Nat × List BlockHash)) (key : Nat) (bh : BlockHash) :
    List (Nat × List BlockHash) :=
  match m with
  | [] => [(key, [bh])]
  | (k, v) :: rest =>
      if k = key then (k, v ++ [bh]) :: rest
      else (k, v) :: insertHash rest key bh

/-- Model of `Read::read(&mut buf)` on an in-memory source: up to
`buf.length` bytes are copied into the front of the reused buffer.  On a
short read the untouched suffix of `buf` keeps its previous (stale)
contents, exactly as in Rust.  Returns the new buffer contents, the
unread remainder of the source, and the number of bytes read. -/
def readBuf (buf remaining : List Nat) : List Nat × List Nat × Nat :=
  let chunk := remaining.take buf.length
  (chunk ++ buf.drop chunk.length, remaining.drop buf.length, chunk.length)

/-- The `while read_size > 0` loop of `Signature::generate`.  Each
iteration strong-hashes the FULL reused buffer `buf` (not just the
`read_size` bytes actually read), records it under the weak digest held
in `rs`, then reads the next chunk and recomputes `rs` over the full
buffer via `batch_roll`. -/
def generateGo (H : List Nat → List Nat) (sig : Signature) (buf : List Nat)
    (rs : Rollsum) (read_size : Nat) (remaining : List Nat) : Nat → Signature
  | 0 => sig
  | fuel + 1 =>
    if read_size = 0 then sig
    else
      let hash := H buf
      let sig1 : Signature :=
        { sig with
          chunk_hashes := insertHash sig.chunk_hashes rs.digest
            { block_index := sig.blocks, hash := hash },
          blocks := add16 sig.blocks 1,
          file_size := add16 sig.file_size (read_size % U16) }
      let r := readBuf buf remaining
      generateGo H sig1 r.1 (rs.batch_roll r.1).1 r.2.2 r.2.1 fuel

/-- `Signature::generate`: first read into a zero-initialized buffer of
`block_size` bytes, seed the rolling checksum over the full buffer, then
run the chunk loop.  The loop runs once per chunk, i.e. at most
`input.length` times, so fuel `input.length + 1` never runs out (and a
run that would exhaust it only exits early when `read_size = 0`, where
the loop would exit anyway). -/
def Signature.generate (H : List Nat → List Nat) (sig : Signature)
    (input : List Nat) : Signature :=
  let buf0 := List.replicate sig.block_size 0
  let r := readBuf buf0 input
  let rs := Rollsum.new r.1
  let sig1 := if r.2.2 = 0 then { sig with blocks := 0, file_size := 0 } else sig
  generateGo H sig1 r.1 rs r.2.2 r.2.1 (input.length + 1)

/-- `Signature::get_chunk_map`. -/
def Signature.get_chunk_map (sig : Signature) (key : Nat) :
    Option (List BlockHash) :=
  (sig.chunk_hashes.find? (fun e => e.1 == key)).map (fun e => e.2)

/-- `Signature::get_file_size`. -/
def Signature.get_file_size (sig : Signature) : Nat := sig.file_size

/-- `Signature::get_blocks`. -/
def Signature.get_blocks (sig : Signature) : Nat := sig.blocks

/-- Modelled from the spec: the strong-hash primitive is the external
`blake2` crate's `Blake2b`, which is not part of this repository; the
spec treats it as "a given collision-resistant black box" (spec section 1).
Most theorems below are parametric in an arbitrary hash function
`H : List Nat → List Nat`; `strongHash` is the concrete injective
instance (the identity on byte lists) used to evaluate concrete runs,
so that strong-hash equality coincides with equality of the hashed
bytes, as collision resistance intends. -/
def strongHash (data : List Nat) : List Nat := data

/-- `lib.rs`: the `Add` delta.  `byte_index` and `bytes` are `u16`. -/
structure Add where
  byte_index : Nat
  bytes : Nat
  content : List Nat
deriving Repr, DecidableEq

/-- `lib.rs`: the `Delete` delta.  Both fields are `u16`. -/
structure Delete where
  byte_index : Nat
  bytes : Nat
deriving Repr, DecidableEq

/-- `lib.rs`: the `Delta` enum. -/
inductive Delta where
  | Add : Add → Delta
  | Delete : Delete → Delta
deriving Repr, DecidableEq

/-- `Add::new`: an empty pending add anchored at `byte_index`. -/
def Add.new (byte_index : Nat) : Add :=
  { byte_index := byte_index, bytes := 0, content := [] }

/-- The length field of a delta (`bytes` in both variants). -/
def Delta.len : Delta → Nat
  | Delta.Add a => a.bytes
  | Delta.Delete d => d.bytes

/-- The `for block in blocks` loop of `check_strong_hash`: return the
first record whose strong hash equals `hash` and whose `block_index`
strictly exceeds `consumed_block_index`. -/
def findStrongMatch (hash : List Nat) (consumed_block_index : Int) :
    List BlockHash → Option Nat
  | [] => none
  | block :: rest =>
      if block.hash = hash ∧ (block.block_index : Int) > consumed_block_index
      then some block.block_index
      else findStrongMatch hash consumed_block_index rest

/-- `check_strong_hash` in `lib.rs`: hash the window with the strong
hash, then scan the bucket in order. -/
def check_strong_hash (H : List Nat → List Nat) (consumed_block_index : Int)
    (window : List Nat) (blocks : List BlockHash) : Option Nat :=
  findStrongMatch (H window) consumed_block_index blocks

/-- The mutable local state of the `loop` in `check_diffs`. -/
structure ScanState where
  window : List Nat
  start_win : Nat
  end_win : Nat
  deltas : List Delta
  new_bytes : Add
  consumed_block_index : Int
  rs : Rollsum
deriving Repr, DecidableEq

/-- Outcome of one iteration of the `loop` in `check_diffs`:
`next` continues with the updated state, `done` breaks out of the loop
with the final state, `stuck` marks an execution the Rust code cannot
complete (an out-of-bounds index/slice panic, or the empty branch for a
weak-hash hit without a qualifying strong match, where the source —
marked `TODO HANDLE IF NO STRONG MATCH` — changes nothing and therefore
loops forever). -/
inductive StepResult where
  | next : ScanState → StepResult
  | done : ScanState → StepResult
  | stuck : StepResult
deriving Repr, DecidableEq

/-- The match branch of the `loop` in `check_diffs` (lib.rs lines
78-107), entered when `check_strong_hash` returned
`some new_matched_index`: emit the skipped-blocks delete, flush a
non-empty pending add, then either take the end-of-file break (when a
full block no longer fits) or jump the window one whole block forward.
The slice `new[end_win..]` of the break path panics when
`end_win > buf_len`, hence the `stuck` guard. -/
def matchedStep (block_size : Nat) (nw : List Nat) (st : ScanState)
    (new_matched_index : Nat) : StepResult :=
  let buf_len := nw.length
  let advanced_blocks :=
    sub16 new_matched_index (i32ToU16 (st.consumed_block_index + 1))
  let deltas1 :=
    if advanced_blocks > 0 then
      st.deltas ++
        [Delta.Delete
          { byte_index := st.start_win,
            bytes := mul16 advanced_blocks (block_size % U16) }]
    else st.deltas
  let consumed1 : Int := (new_matched_index : Int)
  let deltas2 :=
    if st.new_bytes.bytes > 0 then deltas1 ++ [Delta.Add st.new_bytes]
    else deltas1
  if st.end_win + block_size > buf_len then
    if st.end_win ≤ buf_len then
      StepResult.done { st with
        deltas := deltas2,
        consumed_block_index := consumed1,
        new_bytes := { byte_index := add16 st.end_win 1,
                       bytes := sub16 (sub16 (buf_len % U16) st.end_win) 1,
                       content := nw.drop st.end_win } }
    else StepResult.stuck
  else
    let start1 := add16 st.start_win (block_size % U16)
    let end1 := add16 st.end_win (block_size % U16)
    let r := readBuf st.window (nw.drop start1)
    StepResult.next { window := r.1,
                      start_win := start1,
                      end_win := end1,
                      deltas := deltas2,
                      new_bytes := Add.new (add16 st.end_win 1),
                      consumed_block_index := consumed1,
                      rs := (st.rs.batch_roll r.1).1 }

/-- The no-bucket branch of the `loop` in `check_diffs` (lib.rs lines
110-129): move the window's leading byte into the pending add, then
either take the end-of-file break or slide the window one byte.
`window[0]` panics on an empty window and the indexing/slicing of
`new` panics out of bounds, hence the `stuck` guards; inside the
guarded branch `List.getD` equals the Rust index access. -/
def noMatchStep (nw : List Nat) (st : ScanState) : StepResult :=
  let buf_len := nw.length
  match st.window with
  | [] => StepResult.stuck
  | w0 :: _ =>
    let nb1 : Add := { st.new_bytes with
                       content := st.new_bytes.content ++ [w0],
                       bytes := add16 st.new_bytes.bytes 1 }
    if st.end_win ≥ buf_len - 1 then
      if st.start_win ≤ buf_len then
        StepResult.done { st with
          new_bytes := { nb1 with
                         bytes := add16 nb1.bytes
                           (sub16 (buf_len % U16) st.start_win),
                         content := nw.drop st.start_win } }
      else StepResult.stuck
    else
      let start1 := add16 st.start_win 1
      let end1 := add16 st.end_win 1
      if end1 < buf_len ∧ 1 ≤ start1 ∧ start1 - 1 < buf_len then
        StepResult.next { window := (st.window ++ [nw.getD end1 0]).drop 1,
                          start_win := start1,
                          end_win := end1,
                          deltas := st.deltas,
                          new_bytes := nb1,
                          consumed_block_index := st.consumed_block_index,
                          rs := st.rs.roll_hash (some (nw.getD end1 0))
                                  (nw.getD (start1 - 1) 0) }
      else StepResult.stuck

/-- One iteration of the `loop` in `check_diffs` (lib.rs lines 73-130):
look up the bucket for the current weak digest; on a bucket hit run
`check_strong_hash` and, on a qualifying match, the match branch; a
bucket hit without a qualifying strong match leaves the whole state
unchanged in the source (the `TODO HANDLE IF NO STRONG MATCH` branch),
so the loop spins forever — modelled as `stuck`. -/
def scanStep (H : List Nat → List Nat) (block_size : Nat) (sig : Signature)
    (nw : List Nat) (st : ScanState) : StepResult :=
  match sig.get_chunk_map st.rs.digest with
  | some strong_hashes =>
    match check_strong_hash H st.consumed_block_index st.window strong_hashes with
    | some new_matched_index => matchedStep block_size nw st new_matched_index
    | none => StepResult.stuck
  | none => noMatchStep nw st

/-- The `loop` of `check_diffs`, with explicit fuel.  `none` marks an
execution the Rust loop cannot complete (panic, the unhandled
no-strong-match branch, or fuel exhaustion; `check_diffs` passes fuel
`nw.length + 2`, which is enough for every terminating Rust run since
each `next` step strictly advances `start_win` within `[0, nw.length]`
whenever `1 ≤ block_size` and `nw.length ≤ 65535`). -/
def scanLoop (H : List Nat → List Nat) (block_size : Nat) (sig : Signature)
    (nw : List Nat) : Nat → ScanState → Option ScanState
  | 0, _ => none
  | fuel + 1, st =>
      match scanStep H block_size sig nw st with
      | StepResult.next st' => scanLoop H block_size sig nw fuel st'
      | StepResult.done st' => some st'
      | StepResult.stuck => none

/-- The code after the `loop` in `check_diffs` (lines 131-143): flush a
non-empty pending add, then emit the trailing delete when
`sig.get_blocks() - 1 > consumed_block_index as u16` (all in `u16`
arithmetic, `-1` casting to `65535`). -/
def finalize (block_size : Nat) (sig : Signature) (st : ScanState) :
    List Delta :=
  let d1 :=
    if st.new_bytes.bytes > 0 then st.deltas ++ [Delta.Add st.new_bytes]
    else st.deltas
  if sub16 sig.get_blocks 1 > i32ToU16 st.consumed_block_index then
    d1 ++ [Delta.Delete
      { byte_index :=
          usizeSubOneU16 ((st.consumed_block_index + 1).toNat * block_size),
        bytes := sub16 sig.get_file_size
          (mul16 (i32ToU16 (st.consumed_block_index + 1)) (block_size % U16)) }]
  else d1

/-- The scan state just before the `loop` of `check_diffs`: the window
buffer starts as `block_size` zero bytes overwritten by the first read,
`start_win = 0`, `end_win = (block_size - 1) as u16` (the formula below
agrees with the wrapped `usize` subtraction also for `block_size = 0`),
an empty pending add anchored at 0, and `consumed_block_index = -1`. -/
def initScanState (block_size : Nat) (nw : List Nat) : ScanState :=
  let window0 := List.replicate block_size 0
  let r := readBuf window0 nw
  { window := r.1, start_win := 0,
    end_win := (block_size + U16 - 1) % U16,
    deltas := [], new_bytes := Add.new 0,
    consumed_block_index := -1, rs := Rollsum.new r.1 }

/-- `check_diffs` in `lib.rs`: build the signature of the old bytes,
set up the initial scan state, then run the scan loop and the
finalization. -/
def check_diffs (H : List Nat → List Nat) (block_size : Nat)
    (old_buf nw : List Nat) : Option (List Delta) :=
  let sig := (Signature.new block_size).generate H old_buf
  (scanLoop H block_size sig nw (nw.length + 2)
    (initScanState block_size nw)).map (finalize block_size sig)

/-! ## Helper lemmas about the rolling checksum -/

/-- The loops of `Rollsum::new` and `Rollsum::batch_roll` accumulate the
same `s`/`ss`, and the `new` loop counts the width. -/
theorem rollsumGo_eq_batchGo (w : List Nat) :
    ∀ s ss k, (rollsumGo s ss k w).s = (batchGo s ss w).1 ∧
      (rollsumGo s ss k w).ss = (batchGo s ss w).2 ∧
      (rollsumGo s ss k w).block_size = k + w.length := by
  induction w with
  | nil => intro s ss k; simp [rollsumGo, batchGo]
  | cons b rest ih =>
      intro s ss k
      simpa [rollsumGo, batchGo, Nat.add_comm, Nat.add_assoc, Nat.add_left_comm]
        using ih (wadd s b) (wadd ss (wadd s b)) (k + 1)

/-! ## C6 and C8: `batch_roll` versus `new` -/

/-- C6: for every byte buffer whose length equals the current width,
`init` (`Rollsum::new`) on that buffer followed by `digest` returns the
same value as `recompute` (`Rollsum::batch_roll`) on that buffer
followed by `digest`; and `digest` is computed as `(ss << 16) | s` with
only the `u32` wrap of the shift, masking neither operand. -/
theorem digest_init_eq_batch_roll (rs : Rollsum) (buf : List Nat)
    (h : buf.length = rs.block_size) :
    ((rs.batch_roll buf).1).digest = (Rollsum.new buf).digest ∧
    (∀ r : Rollsum, r.digest = ((r.ss <<< 16) % W32) ||| r.s) := by
  constructor
  · have hgo := rollsumGo_eq_batchGo buf 0 0 0
    simp only [Rollsum.batch_roll, h, ne_eq, not_true_eq_false, if_neg,
      not_false_eq_true, if_false]
    simp [Rollsum.digest, Rollsum.new, hgo.1, hgo.2.1]
  · intro r; rfl

/-- Witness for `digest_init_eq_batch_roll` at a concrete state and
buffer. -/
theorem digest_init_eq_batch_roll_witness :
    ((({ s := 7, ss := 9, block_size := 3 } : Rollsum).batch_roll
        [1, 2, 3]).1).digest = (Rollsum.new [1, 2, 3]).digest :=
  (digest_init_eq_batch_roll { s := 7, ss := 9, block_size := 3 } [1, 2, 3]
    (by decide)).1

/-- C8: `batch_roll` errors out exactly when the buffer length differs
from the current width; on the error path the state is returned
untouched; on the success path there is no error and `s`/`ss` are
rebuilt from scratch over the buffer (they equal the fields of a fresh
`Rollsum::new` on the buffer) while the width is kept. -/
theorem batch_roll_length_check (rs : Rollsum) (buffer : List Nat) :
    ((rs.batch_roll buffer).2 = some RollsumError.BatchRollError ↔
      buffer.length ≠ rs.block_size) ∧
    (buffer.length ≠ rs.block_size → (rs.batch_roll buffer).1 = rs) ∧
    (buffer.length = rs.block_size →
      (rs.batch_roll buffer).2 = none ∧
      (rs.batch_roll buffer).1 =
        { s := (Rollsum.new buffer).s, ss := (Rollsum.new buffer).ss,
          block_size := rs.block_size }) := by
  have hgo := rollsumGo_eq_batchGo buffer 0 0 0
  by_cases h : buffer.length = rs.block_size
  · simp [Rollsum.batch_roll, h, Rollsum.new, hgo.1, hgo.2.1]
  · simp [Rollsum.batch_roll, h]

/-- Witness for `batch_roll_length_check`: the error case leaves a
concrete state unchanged, and the success case reports no error. -/
theorem batch_roll_length_check_witness :
    (({ s := 1, ss := 2, block_size := 2 } : Rollsum).batch_roll
      [5, 6, 7]).1 = { s := 1, ss := 2, block_size := 2 } ∧
    (({ s := 1, ss := 2, block_size := 2 } : Rollsum).batch_roll
      [5, 6]).2 = none :=
  ⟨(batch_roll_length_check { s := 1, ss := 2, block_size := 2 }
      [5, 6, 7]).2.1 (by decide),
   ((batch_roll_length_check { s := 1, ss := 2, block_size := 2 }
      [5, 6]).2.2 (by decide)).1⟩

/-! ## C9: signature of an empty source -/

/-- C9: for an input source that yields zero bytes on the first read,
`generate` leaves `block_count = 0`, `total_bytes = 0` and an empty
bucket map, so every lookup returns `none`. -/
theorem generate_empty_source (H : List Nat → List Nat) (block_size key : Nat) :
    ((Signature.new block_size).generate H []).get_blocks = 0 ∧
    ((Signature.new block_size).generate H []).get_file_size = 0 ∧
    ((Signature.new block_size).generate H []).chunk_hashes = [] ∧
    ((Signature.new block_size).generate H []).get_chunk_map key = none := by
  simp [Signature.generate, Signature.new, readBuf, generateGo,
    Signature.get_blocks, Signature.get_file_size, Signature.get_chunk_map]

/-! ## C2: the short final chunk is hashed from the stale buffer -/

/-- C2 fails on the code: with `block_size = 2` and old bytes
`[1, 2, 3]`, the final chunk is the single byte `3`, but
`Signature::generate` strong-hashes and weak-digests the full reused
buffer `[3, 2]` (the `2` is stale data from the previous read).  The
block record for index 1 is stored under the weak digest of `[3, 2]`
with strong hash of `[3, 2]`, and no record exists under the weak
digest of the bytes actually read, `[3]`. -/
theorem generate_hashes_stale_final_chunk :
    ((Signature.new 2).generate strongHash [1, 2, 3]).chunk_hashes =
      [(262147, [{ block_index := 0, hash := [1, 2] }]),
       (524293, [{ block_index := 1, hash := [3, 2] }])] ∧
    (Rollsum.new [3, 2]).digest = 524293 ∧
    (Rollsum.new [3]).digest = 196611 ∧
    ((Signature.new 2).generate strongHash [1, 2, 3]).get_chunk_map
      ((Rollsum.new [3]).digest) = none := by decide

/-! ## C1: an emitted `Add` whose `bytes` differs from `content.length` -/

/-- C1 fails on the code: with `block_size = 2`,
old `[97, 98, 99, 100]` and new `[97, 98, 120]`, the scan matches old
block 0, slides into the tail, and the end-of-sequence path of the
no-match branch (lib.rs lines 113-118) both keeps the `+1` from the
current iteration and re-adds the whole tail, while overwriting
`content` with only the tail slice: the emitted `Add` carries
`bytes = 2` but a 1-byte `content`. -/
theorem check_diffs_add_length_mismatch :
    check_diffs strongHash 2 [97, 98, 99, 100] [97, 98, 120] =
      some [Delta.Add { byte_index := 2, bytes := 2, content := [120] },
            Delta.Delete { byte_index := 1, bytes := 2 }] ∧
    (2 : Nat) ≠ ([120] : List Nat).length := by decide

/-! ## C3: the trailing delete, as the code actually emits it -/

/-- C3 fails on the code, in two ways.  With `block_size = 4` and old
`"aaaabbbb"`: (run A) new `"aaaa"` consumes old block 0 and leaves
block 1 unconsumed, and the trailing delete is anchored at byte 3 —
`(consumed+1)*block_size - 1`, one BEFORE the position just after the
last consumed block (which is 4); (run B) new `"cccc"` matches nothing,
`consumed_block_index` stays `-1`, and no trailing delete at all is
emitted (the claim requires one covering all 8 old bytes), because
`-1 as u16` is `65535` and `get_blocks() - 1 > 65535` is never true. -/
theorem check_diffs_trailing_delete_counterexample :
    check_diffs strongHash 4 [97, 97, 97, 97, 98, 98, 98, 98]
        [97, 97, 97, 97] =
      some [Delta.Delete { byte_index := 3, bytes := 4 }] ∧
    check_diffs strongHash 4 [97, 97, 97, 97, 98, 98, 98, 98]
        [99, 99, 99, 99] =
      some [Delta.Add { byte_index := 0, bytes := 5,
                        content := [99, 99, 99, 99] }] := by decide

/-! ## Arithmetic helper lemmas for the wrapped 16-bit operations -/

theorem add16_lt (a b : Nat) : add16 a b < U16 := Nat.mod_lt _ (by decide)

theorem sub16_lt (a b : Nat) : sub16 a b < U16 := Nat.mod_lt _ (by decide)

theorem mul16_lt (a b : Nat) : mul16 a b < U16 := Nat.mod_lt _ (by decide)

theorem add16_eq (a b : Nat) (h : a + b < U16) : add16 a b = a + b :=
  Nat.mod_eq_of_lt h

theorem sub16_eq (a b : Nat) (hba : b ≤ a) (ha : a < U16) :
    sub16 a b = a - b := by
  have hU : U16 = 65536 := rfl
  rw [hU] at ha
  simp only [sub16, hU]
  omega

theorem mul16_eq (a b : Nat) (h : a * b < U16) : mul16 a b = a * b :=
  Nat.mod_eq_of_lt h

theorem mul16_mod_right (a b : Nat) : mul16 a (b % U16) = mul16 a b := by
  simp only [mul16, Nat.mul_mod, Nat.mod_mod_of_dvd, Nat.mod_mod]

theorem i32ToU16_natCast (n : Nat) (h : n < 65536) : i32ToU16 (n : Int) = n := by
  simp only [i32ToU16]
  rw [Int.emod_eq_of_lt (by positivity) (by exact_mod_cast h)]
  simp

theorem i32ToU16_neg_one : i32ToU16 (-1) = 65535 := by decide

/-! ## Lemmas about `check_strong_hash` -/

/-- The bucket scan only ever returns an index strictly greater than
`consumed_block_index`. -/
theorem findStrongMatch_gt (hash : List Nat) (c : Int) :
    ∀ (l : List BlockHash) (i : Nat),
      findStrongMatch hash c l = some i → c < (i : Int) := by
  intro l
  induction l with
  | nil => intro i h; simp [findStrongMatch] at h
  | cons b rest ih =>
      intro i h
      by_cases hb : b.hash = hash ∧ (b.block_index : Int) > c
      · rw [findStrongMatch, if_pos hb] at h
        cases h
        exact hb.2
      · rw [findStrongMatch, if_neg hb] at h
        exact ih i h

/-- A returned index comes from a record of the bucket, whose strong
hash matches and whose index exceeds `consumed_block_index`. -/
theorem findStrongMatch_mem (hash : List Nat) (c : Int) :
    ∀ (l : List BlockHash) (i : Nat),
      findStrongMatch hash c l = some i →
      ∃ b ∈ l, b.block_index = i ∧ b.hash = hash ∧ c < (i : Int) := by
  intro l
  induction l with
  | nil => intro i h; simp [findStrongMatch] at h
  | cons b rest ih =>
      intro i h
      by_cases hb : b.hash = hash ∧ (b.block_index : Int) > c
      · rw [findStrongMatch, if_pos hb] at h
        cases h
        exact ⟨b, List.mem_cons_self _ _, rfl, hb.1, hb.2⟩
      · rw [findStrongMatch, if_neg hb] at h
        obtain ⟨b', hb', hrest⟩ := ih i h
        exact ⟨b', List.mem_cons_of_mem _ hb', hrest⟩

/-- On a bucket whose indices are strictly ascending, the bucket scan
returns the LOWEST index among the qualifying records. -/
theorem findStrongMatch_lowest (hash : List Nat) (c : Int) :
    ∀ (l : List BlockHash) (i : Nat),
      List.Pairwise (· < ·) (l.map fun b => b.block_index) →
      findStrongMatch hash c l = some i →
      ∀ b ∈ l, b.hash = hash → c < (b.block_index : Int) → i ≤ b.block_index := by
  intro l
  induction l with
  | nil => intro i _ h; simp [findStrongMatch] at h
  | cons b rest ih =>
      intro i hpw h b' hb' hhash hgt
      rw [List.map_cons, List.pairwise_cons] at hpw
      by_cases hb : b.hash = hash ∧ (b.block_index : Int) > c
      · rw [findStrongMatch, if_pos hb] at h
        cases h
        rcases List.mem_cons.mp hb' with h1 | h1
        · exact h1 ▸ Nat.le_refl _
        · exact Nat.le_of_lt (hpw.1 _ (List.mem_map_of_mem _ h1))
      · rw [findStrongMatch, if_neg hb] at h
        rcases List.mem_cons.mp hb' with h1 | h1
        · exact absurd ⟨h1 ▸ hhash, h1 ▸ hgt⟩ hb
        · exact ih i hpw.2 h b' h1 hhash hgt

/-! ## Monotonicity of `consumed_block_index` (C4) -/

/-- The no-match branch never touches `consumed_block_index` or the
emitted deltas. -/
theorem noMatchStep_preserves (nw : List Nat) (st st' : ScanState)
    (h : noMatchStep nw st = StepResult.next st' ∨
         noMatchStep nw st = StepResult.done st') :
    st'.consumed_block_index = st.consumed_block_index ∧
    st'.deltas = st.deltas := by
  simp only [noMatchStep] at h
  rcases h with h | h <;>
  · repeat' split at h
    all_goals (cases h <;> exact ⟨rfl, rfl⟩)

/-- The match branch sets `consumed_block_index` to the matched index
(whatever deltas it appends). -/
theorem matchedStep_consumed (bs : Nat) (nw : List Nat) (st st' : ScanState)
    (m : Nat)
    (h : matchedStep bs nw st m = StepResult.next st' ∨
         matchedStep bs nw st m = StepResult.done st') :
    st'.consumed_block_index = (m : Int) := by
  simp only [matchedStep] at h
  rcases h with h | h <;>
  · repeat' split at h
    all_goals (cases h <;> rfl)

/-- One scan iteration never decreases `consumed_block_index`. -/
theorem scanStep_consumed_mono (H : List Nat → List Nat) (bs : Nat)
    (sig : Signature) (nw : List Nat) (st st' : ScanState)
    (h : scanStep H bs sig nw st = StepResult.next st' ∨
         scanStep H bs sig nw st = StepResult.done st') :
    st.consumed_block_index ≤ st'.consumed_block_index := by
  unfold scanStep at h
  split at h
  next shl heq =>
    split at h
    next m heqm =>
      rw [matchedStep_consumed bs nw st st' m h]
      exact Int.le_of_lt
        (findStrongMatch_gt (H st.window) st.consumed_block_index shl m heqm)
    next => rcases h with h | h <;> cases h
  next =>
    rw [(noMatchStep_preserves nw st st' h).1]

/-- Across any number of scan iterations, `consumed_block_index` never
decreases. -/
theorem scanLoop_consumed_mono (H : List Nat → List Nat) (bs : Nat)
    (sig : Signature) (nw : List Nat) :
    ∀ (fuel : Nat) (st st' : ScanState),
      scanLoop H bs sig nw fuel st = some st' →
      st.consumed_block_index ≤ st'.consumed_block_index := by
  intro fuel
  induction fuel with
  | zero => intro st st' h; simp [scanLoop] at h
  | succ fuel ih =>
      intro st st' h
      simp only [scanLoop] at h
      cases hstep : scanStep H bs sig nw st with
      | next st1 =>
          simp only [hstep] at h
          exact Int.le_trans
            (scanStep_consumed_mono H bs sig nw st st1 (Or.inl hstep))
            (ih st1 st' h)
      | done st1 =>
          simp only [hstep] at h
          cases h
          exact scanStep_consumed_mono H bs sig nw st _ (Or.inr hstep)
      | stuck =>
          simp only [hstep] at h
          cases h

/-- C4: throughout a scan `consumed_block_index` is non-decreasing —
both across a single iteration and across the whole loop — and
`check_strong_hash` only ever returns indices strictly greater than the
current `consumed_block_index`, so no accepted match reuses a
previously consumed block. -/
theorem consumed_forward_only (H : List Nat → List Nat) (bs : Nat)
    (sig : Signature) (nw : List Nat) :
    (∀ (c : Int) (w : List Nat) (l : List BlockHash) (i : Nat),
        check_strong_hash H c w l = some i → c < (i : Int)) ∧
    (∀ (st st' : ScanState),
        (scanStep H bs sig nw st = StepResult.next st' ∨
         scanStep H bs sig nw st = StepResult.done st') →
        st.consumed_block_index ≤ st'.consumed_block_index) ∧
    (∀ (fuel : Nat) (st st' : ScanState),
        scanLoop H bs sig nw fuel st = some st' →
        st.consumed_block_index ≤ st'.consumed_block_index) :=
  ⟨fun c w l i h => findStrongMatch_gt (H w) c l i h,
   fun st st' h => scanStep_consumed_mono H bs sig nw st st' h,
   fun fuel st st' h => scanLoop_consumed_mono H bs sig nw fuel st st' h⟩

/-- Witness for `consumed_forward_only`: a complete concrete scan (old
`"aaaabbbb"`, new `"aaaa"`, `block_size = 4`) whose final
`consumed_block_index` (0) is no less than the initial one (-1). -/
theorem consumed_forward_only_witness :
    ({ window := [97, 97, 97, 97], start_win := 0, end_win := 3,
       deltas := [], new_bytes := Add.new 0, consumed_block_index := -1,
       rs := Rollsum.new [97, 97, 97, 97] } : ScanState).consumed_block_index ≤
    ({ window := [97, 97, 97, 97], start_win := 0, end_win := 3,
       deltas := [],
       new_bytes := { byte_index := 4, bytes := 0, content := [97] },
       consumed_block_index := 0,
       rs := { s := 388, ss := 970, block_size := 4 } } :
        ScanState).consumed_block_index :=
  (consumed_forward_only strongHash 4
      ((Signature.new 4).generate strongHash [97, 97, 97, 97, 98, 98, 98, 98])
      [97, 97, 97, 97]).2.2 6 _ _ (by decide)

/-! ## Bucket invariants of signature generation (C7) -/

/-- Well-formedness of the signature's buckets: every record's
`block_index` is below the running block counter, and each bucket's
indices are strictly ascending in insertion order. -/
def BucketsWF (sig : Signature) : Prop :=
  ∀ kv ∈ sig.chunk_hashes,
    (∀ b ∈ kv.2, b.block_index < sig.blocks) ∧
    List.Pairwise (· < ·) (kv.2.map fun b => b.block_index)

/-- Membership after an `insertHash`: an entry is an old entry, an old
entry with `bh` appended, or the fresh singleton bucket. -/
theorem insertHash_mem (key : Nat) (bh : BlockHash) :
    ∀ (m : List (Nat × List BlockHash)) (kv : Nat × List BlockHash),
      kv ∈ insertHash m key bh →
      (∃ v, (kv.1, v) ∈ m ∧ (kv.2 = v ∨ kv.2 = v ++ [bh])) ∨ kv.2 = [bh] := by
  intro m
  induction m with
  | nil =>
      intro kv h
      simp only [insertHash, List.mem_singleton] at h
      right
      rw [h]
  | cons e rest ih =>
      intro kv h
      obtain ⟨k, v⟩ := e
      simp only [insertHash] at h
      by_cases hk : k = key
      · rw [if_pos hk] at h
        rcases List.mem_cons.mp h with h1 | h1
        · exact Or.inl ⟨v, by rw [h1]; exact ⟨List.mem_cons_self _ _, Or.inr rfl⟩⟩
        · exact Or.inl ⟨kv.2, List.mem_cons_of_mem _ h1, Or.inl rfl⟩
      · rw [if_neg hk] at h
        rcases List.mem_cons.mp h with h1 | h1
        · exact Or.inl ⟨v, by rw [h1]; exact ⟨List.mem_cons_self _ _, Or.inl rfl⟩⟩
        · rcases ih kv h1 with ⟨v', hv', hor⟩ | hnew
          · exact Or.inl ⟨v', List.mem_cons_of_mem _ hv', hor⟩
          · exact Or.inr hnew

/-- `readBuf` leaves the reused buffer at its fixed size. -/
theorem readBuf_length (buf rem : List Nat) :
    (readBuf buf rem).1.length = buf.length := by
  simp only [readBuf, List.length_append, List.length_take, List.length_drop]
  omega

/-- The chunk loop of `generate` preserves bucket well-formedness, as
long as the block counter cannot wrap during the remaining chunks. -/
theorem generateGo_buckets (H : List Nat → List Nat) :
    ∀ (fuel : Nat) (sig : Signature) (buf : List Nat) (rs : Rollsum)
      (read_size : Nat) (remaining : List Nat),
      BucketsWF sig →
      0 < buf.length →
      (0 < read_size →
        sig.blocks + 1 + (remaining.length + buf.length - 1) / buf.length
          ≤ 65535) →
      BucketsWF (generateGo H sig buf rs read_size remaining fuel) := by
  intro fuel
  induction fuel with
  | zero => intro sig buf rs rsz rem hwf _ _; exact hwf
  | succ fuel ih =>
      intro sig buf rs rsz rem hwf hbuf hbound
      simp only [generateGo]
      split
      · exact hwf
      · rename_i hrsz
        have hbound' := hbound (Nat.pos_of_ne_zero hrsz)
        have hb2 : sig.blocks + 1 ≤ 65535 :=
          Nat.le_trans (Nat.le_add_right _ _) hbound'
        have hblocks1 : add16 sig.blocks 1 = sig.blocks + 1 := by
          apply add16_eq
          have hU : U16 = 65536 := rfl
          omega
        apply ih
        · -- the signature after inserting this chunk's record stays WF
          intro kv hkv
          rcases insertHash_mem rs.digest
              { block_index := sig.blocks, hash := H buf }
              sig.chunk_hashes kv hkv with ⟨v, hv, hor⟩ | hnew
          · have hold := hwf (kv.1, v) hv
            rcases hor with h2 | h2
            · refine ⟨fun b hb => ?_, ?_⟩
              · show b.block_index < add16 sig.blocks 1
                rw [hblocks1]
                exact Nat.lt_succ_of_lt (hold.1 b (h2 ▸ hb))
              · rw [h2]; exact hold.2
            · constructor
              · intro b hb
                show b.block_index < add16 sig.blocks 1
                rw [hblocks1]
                rcases List.mem_append.mp (h2 ▸ hb) with hb1 | hb1
                · exact Nat.lt_succ_of_lt (hold.1 b hb1)
                · have : b = { block_index := sig.blocks, hash := H buf } :=
                    List.mem_singleton.mp hb1
                  rw [this]
                  exact Nat.lt_succ_self _
              · rw [h2, List.map_append, List.pairwise_append]
                refine ⟨hold.2, List.pairwise_singleton _ _, ?_⟩
                intro a ha b hb
                rcases List.mem_map.mp ha with ⟨x, hx, rfl⟩
                rcases List.mem_map.mp hb with ⟨y, hy, rfl⟩
                have hyb : y = { block_index := sig.blocks, hash := H buf } :=
                  List.mem_singleton.mp hy
                rw [hyb]
                exact hold.1 x hx
          · constructor
            · intro b hb
              show b.block_index < add16 sig.blocks 1
              rw [hblocks1]
              have : b = { block_index := sig.blocks, hash := H buf } :=
                List.mem_singleton.mp (hnew ▸ hb)
              rw [this]
              exact Nat.lt_succ_self _
            · rw [hnew]; exact List.pairwise_singleton _ _
        · rw [readBuf_length]; exact hbuf
        · -- the counter bound carries to the next chunk
          intro hpos
          rw [readBuf_length]
          have hlen21 : (readBuf buf rem).2.1.length = rem.length - buf.length := by
            simp [readBuf]
          have hlen22 : (readBuf buf rem).2.2 = min buf.length rem.length := by
            simp [readBuf]
          rw [hlen21]
          rw [hlen22] at hpos
          have hrem : 0 < rem.length := lt_min_iff.mp hpos |>.2
          show add16 sig.blocks 1 + 1 +
            (rem.length - buf.length + buf.length - 1) / buf.length ≤ 65535
          rw [hblocks1]
          have key1 : (rem.length - buf.length + buf.length - 1) / buf.length
              ≤ (rem.length - 1) / buf.length := by
            rcases Nat.lt_or_ge rem.length buf.length with hlt | hle
            · have h0 : rem.length - buf.length = 0 := by omega
              rw [h0, Nat.zero_add]
              rw [Nat.div_eq_of_lt (by omega)]
              exact Nat.zero_le _
            · apply Nat.div_le_div_right
              omega
          have key2 : (rem.length + buf.length - 1) / buf.length
              = (rem.length - 1) / buf.length + 1 := by
            have h1 : rem.length + buf.length - 1
                = (rem.length - 1) + buf.length := by omega
            rw [h1, Nat.add_div_right _ hbuf]
          omega

/-- The signature built by `generate` over any source that fits the
16-bit counters has well-formed buckets. -/
theorem generate_buckets (H : List Nat → List Nat) (bs : Nat)
    (input : List Nat) (hlen : input.length ≤ 65535) :
    BucketsWF ((Signature.new bs).generate H input) := by
  rcases Nat.eq_zero_or_pos bs with hbs | hbs
  · subst hbs
    have hgen : (Signature.new 0).generate H input
        = { chunk_hashes := [], block_size := 0, blocks := 0,
            file_size := 0 } := by
      simp [Signature.generate, Signature.new, readBuf, generateGo]
    rw [hgen]
    intro kv hkv
    simp at hkv
  · simp only [Signature.generate]
    apply generateGo_buckets
    · -- the starting signature has no buckets at all
      split <;> (intro kv hkv; simp [Signature.new] at hkv)
    · rw [readBuf_length, List.length_replicate]
      exact hbs
    · intro hpos
      have hrsz : (readBuf (List.replicate (Signature.new bs).block_size 0)
          input).2.2 = min bs input.length := by
        simp [readBuf, Signature.new]
      rw [hrsz] at hpos
      have hinp : 0 < input.length := (lt_min_iff.mp hpos).2
      rw [if_neg (by rw [hrsz]; omega)]
      rw [readBuf_length, List.length_replicate]
      have hrem : (readBuf (List.replicate (Signature.new bs).block_size 0)
          input).2.1.length = input.length - bs := by
        simp [readBuf, Signature.new]
      rw [hrem]
      show (Signature.new bs).blocks + 1
          + (input.length - bs + (Signature.new bs).block_size - 1)
            / (Signature.new bs).block_size ≤ 65535
      have hnewbs : (Signature.new bs).block_size = bs := rfl
      have hnewb : (Signature.new bs).blocks = 0 := rfl
      rw [hnewbs, hnewb]
      have key1 : (input.length - bs + bs - 1) / bs
          ≤ (input.length - 1) / bs := by
        rcases Nat.lt_or_ge input.length bs with hlt | hle
        · have h0 : input.length - bs = 0 := by omega
          rw [h0, Nat.zero_add, Nat.div_eq_of_lt (by omega)]
          exact Nat.zero_le _
        · apply Nat.div_le_div_right
          omega
      have key2 : (input.length - 1) / bs ≤ input.length - 1 :=
        Nat.div_le_self _ _
      omega

/-- A successful bucket lookup returns one of the signature's buckets. -/
theorem get_chunk_map_mem (sig : Signature) (k : Nat) (v : List BlockHash)
    (h : sig.get_chunk_map k = some v) :
    ∃ kv ∈ sig.chunk_hashes, kv.2 = v := by
  unfold Signature.get_chunk_map at h
  rcases Option.map_eq_some'.mp h with ⟨e, he, hev⟩
  exact ⟨e, List.mem_of_find?_eq_some he, hev⟩

/-- C7: every bucket of a generated signature holds its records in
strictly ascending `block_index` order, and on such a bucket the
scanner's `check_strong_hash` selects the LOWEST `block_index` among
the records whose strong hash equals the window's and whose index
exceeds `consumed_block_index`. -/
theorem buckets_ascending_lowest_selected (H : List Nat → List Nat)
    (bs : Nat) (input : List Nat) (hlen : input.length ≤ 65535) :
    (∀ (k : Nat) (v : List BlockHash),
        ((Signature.new bs).generate H input).get_chunk_map k = some v →
        List.Pairwise (· < ·) (v.map fun b => b.block_index)) ∧
    (∀ (c : Int) (w : List Nat) (v : List BlockHash) (i : Nat),
        List.Pairwise (· < ·) (v.map fun b => b.block_index) →
        check_strong_hash H c w v = some i →
        (∃ b ∈ v, b.block_index = i ∧ b.hash = H w ∧ c < (i : Int)) ∧
        ∀ b ∈ v, b.hash = H w → c < (b.block_index : Int) →
          i ≤ b.block_index) := by
  constructor
  · intro k v hv
    obtain ⟨kv, hkv, hkv2⟩ := get_chunk_map_mem _ k v hv
    rw [← hkv2]
    exact (generate_buckets H bs input hlen kv hkv).2
  · intro c w v i hpw h
    exact ⟨findStrongMatch_mem (H w) c v i h,
           findStrongMatch_lowest (H w) c v i hpw h⟩

/-- Witness for `buckets_ascending_lowest_selected`: a generated bucket
is ascending, and on a bucket with two identical strong hashes the
scanner picks the lower qualifying index. -/
theorem buckets_ascending_lowest_selected_witness :
    List.Pairwise (· < ·)
      (([{ block_index := 0, hash := [97, 97, 97, 97] }] :
        List BlockHash).map fun b => b.block_index) ∧
    ((∃ b ∈ [({ block_index := 1, hash := [5] } : BlockHash),
             { block_index := 3, hash := [5] }],
        b.block_index = 1 ∧ b.hash = strongHash [5] ∧ (0 : Int) < (1 : Nat)) ∧
     ∀ b ∈ [({ block_index := 1, hash := [5] } : BlockHash),
            { block_index := 3, hash := [5] }],
       b.hash = strongHash [5] → (0 : Int) < (b.block_index : Int) →
       1 ≤ b.block_index) :=
  ⟨(buckets_ascending_lowest_selected strongHash 4
      [97, 97, 97, 97, 98, 98, 98, 98] (by decide)).1 63570308
      [{ block_index := 0, hash := [97, 97, 97, 97] }] (by decide),
   (buckets_ascending_lowest_selected strongHash 4
      [97, 97, 97, 97, 98, 98, 98, 98] (by decide)).2 0 [5]
      [{ block_index := 1, hash := [5] }, { block_index := 3, hash := [5] }]
      1 (by decide) (by decide)⟩

/-! ## C5: incremental equivalence of the rolling checksum -/

/-- View of a wrapped 32-bit value in the ring `ZMod W32`, where the
wrapping `u32` arithmetic becomes plain ring arithmetic. -/
def toZ (n : Nat) : ZMod W32 := (n : ZMod W32)

theorem toZ_wadd (a b : Nat) : toZ (wadd a b) = toZ a + toZ b := by
  simp [toZ, wadd, ZMod.natCast_mod]

theorem toZ_wmul (a b : Nat) : toZ (wmul a b) = toZ a * toZ b := by
  simp [toZ, wmul, ZMod.natCast_mod]

theorem toZ_wsub (a b : Nat) : toZ (wsub a b) = toZ a - toZ b := by
  have hlt : b % W32 < W32 := Nat.mod_lt _ (by decide)
  simp only [toZ, wsub, ZMod.natCast_mod, Nat.cast_add,
    Nat.cast_sub (Nat.le_of_lt hlt), ZMod.natCast_self]
  ring

theorem wadd_lt (a b : Nat) : wadd a b < W32 := Nat.mod_lt _ (by decide)

theorem wsub_lt (a b : Nat) : wsub a b < W32 := Nat.mod_lt _ (by decide)

theorem toZ_inj (a b : Nat) (ha : a < W32) (hb : b < W32)
    (h : toZ a = toZ b) : a = b := by
  have hv := congrArg ZMod.val h
  rwa [toZ, toZ, ZMod.val_cast_of_lt ha, ZMod.val_cast_of_lt hb] at hv

/-- The plain byte sum of a window, in `ZMod W32`. -/
def zsum (w : List Nat) : ZMod W32 := (w.map fun b => (b : ZMod W32)).sum

/-- The weighted sum the `ss` accumulator computes: each byte counts
once per position it has occupied, i.e. byte `i` (0-based) of a window
of width `n` contributes `(n - i)` times. -/
def zss : List Nat → ZMod W32
  | [] => 0
  | b :: rest => ((rest.length + 1 : Nat) : ZMod W32) * (b : ZMod W32) + zss rest

theorem zsum_nil : zsum [] = 0 := rfl

theorem zsum_cons (b : Nat) (rest : List Nat) :
    zsum (b :: rest) = (b : ZMod W32) + zsum rest := by
  simp [zsum]

theorem zsum_append (w : List Nat) (c : Nat) :
    zsum (w ++ [c]) = zsum w + (c : ZMod W32) := by
  simp [zsum]

theorem zss_append (w : List Nat) (c : Nat) :
    zss (w ++ [c]) = zss w + zsum w + (c : ZMod W32) := by
  induction w with
  | nil => simp [zss, zsum]
  | cons b rest ih =>
      have hc : (b :: rest) ++ [c] = b :: (rest ++ [c]) := rfl
      rw [hc, zss, zss, ih, zsum_cons, List.length_append,
        List.length_singleton]
      push_cast
      ring

/-- Full characterization of the `Rollsum::new` loop in `ZMod W32`. -/
theorem rollsumGo_spec (w : List Nat) :
    ∀ s ss k, s < W32 → ss < W32 →
      toZ (rollsumGo s ss k w).s = toZ s + zsum w ∧
      toZ (rollsumGo s ss k w).ss
        = toZ ss + (w.length : ZMod W32) * toZ s + zss w ∧
      (rollsumGo s ss k w).block_size = k + w.length ∧
      (rollsumGo s ss k w).s < W32 ∧ (rollsumGo s ss k w).ss < W32 := by
  induction w with
  | nil =>
      intro s ss k hs hss
      refine ⟨by simp [rollsumGo, zsum], by simp [rollsumGo, zss], by
        simp [rollsumGo], hs, hss⟩
  | cons b rest ih =>
      intro s ss k hs hss
      have h := ih (wadd s b) (wadd ss (wadd s b)) (k + 1)
        (wadd_lt _ _) (wadd_lt _ _)
      simp only [rollsumGo]
      refine ⟨?_, ?_, ?_, h.2.2.2⟩
      · rw [h.1, toZ_wadd, zsum_cons]
        simp only [toZ]
        ring
      · rw [h.2.1, toZ_wadd, toZ_wadd]
        simp only [zss, List.length_cons, toZ]
        push_cast
        ring
      · rw [h.2.2.1]
        simp only [List.length_cons]
        omega

/-- `Rollsum::new` computes `s = Σ bytes` and the weighted `ss`, sets
the width to the window length, and keeps both accumulators reduced. -/
theorem Rollsum_new_spec (w : List Nat) :
    toZ (Rollsum.new w).s = zsum w ∧ toZ (Rollsum.new w).ss = zss w ∧
    (Rollsum.new w).block_size = w.length ∧
    (Rollsum.new w).s < W32 ∧ (Rollsum.new w).ss < W32 := by
  have h := rollsumGo_spec w 0 0 0 (by decide) (by decide)
  have h0 : toZ 0 = 0 := by simp [toZ]
  rw [Rollsum.new]
  refine ⟨?_, ?_, by rw [h.2.2.1]; omega, h.2.2.2⟩
  · rw [h.1, h0]; ring
  · rw [h.2.1, h0]; ring

/-- Two rolling states with equal fields are equal. -/
theorem Rollsum.ext_fields (a b : Rollsum) (h1 : a.s = b.s)
    (h2 : a.ss = b.ss) (h3 : a.block_size = b.block_size) : a = b := by
  cases a; cases b; simp_all

/-- Rolling the leftmost byte out and a new byte in, starting from a
fresh init of any non-empty window, lands exactly on the fresh init of
the shifted window: same `s`, same `ss`, same width. -/
theorem roll_hash_eq_new (b : Nat) (rest : List Nat) (c : Nat) :
    (Rollsum.new (b :: rest)).roll_hash (some c) b
      = Rollsum.new (rest ++ [c]) := by
  have h1 := Rollsum_new_spec (b :: rest)
  have h2 := Rollsum_new_spec (rest ++ [c])
  have hlen1 : (b :: rest).length = rest.length + 1 := by simp
  have hlen2 : (rest ++ [c]).length = rest.length + 1 := by simp
  apply Rollsum.ext_fields
  · show wadd (wsub (Rollsum.new (b :: rest)).s b) c
        = (Rollsum.new (rest ++ [c])).s
    apply toZ_inj _ _ (wadd_lt _ _) h2.2.2.2.1
    rw [toZ_wadd, toZ_wsub, h1.1, h2.1, zsum_cons, zsum_append]
    simp only [toZ]
    ring
  · show wadd (wsub (Rollsum.new (b :: rest)).ss
          (wmul ((Rollsum.new (b :: rest)).block_size % W32) b))
        (wadd (wsub (Rollsum.new (b :: rest)).s b) c)
        = (Rollsum.new (rest ++ [c])).ss
    apply toZ_inj _ _ (wadd_lt _ _) h2.2.2.2.2
    rw [toZ_wadd, toZ_wsub, toZ_wmul, toZ_wadd, toZ_wsub]
    have hmod : toZ ((Rollsum.new (b :: rest)).block_size % W32)
        = (((Rollsum.new (b :: rest)).block_size : Nat) : ZMod W32) := by
      simp [toZ, ZMod.natCast_mod]
    rw [hmod, h1.2.2.1, hlen1, h1.1, h1.2.1, h2.2.1, zss_append, zsum_cons]
    rw [zss]
    simp only [toZ]
    push_cast
    ring
  · show (Rollsum.new (b :: rest)).block_size
        = (Rollsum.new (rest ++ [c])).block_size
    rw [h1.2.2.1, h2.2.2.1, hlen1, hlen2]

/-- Byte-by-byte sliding across a sequence, as the scanner's no-match
path does it: position `i` holds the rolling state for the width-`k`
window starting at offset `i`, obtained from position `i - 1` by a
single `roll_hash` call (byte `i - 1` out, byte `i - 1 + k` in). -/
def slideIter (seq : List Nat) (k : Nat) : Nat → Rollsum
  | 0 => Rollsum.new (seq.take k)
  | i + 1 =>
      (slideIter seq k i).roll_hash (some (seq.getD (i + k) 0)) (seq.getD i 0)

/-- Sliding `i` bytes reproduces the fresh init of the window at
offset `i`, for every in-range position. -/
theorem slideIter_eq_new (seq : List Nat) (k : Nat) (hk : 0 < k) :
    ∀ i, i + k ≤ seq.length →
      slideIter seq k i = Rollsum.new ((seq.drop i).take k) := by
  intro i
  induction i with
  | zero => intro h; simp [slideIter]
  | succ i ih =>
      intro h
      have hih := ih (by omega)
      have hi : i < seq.length := by omega
      have hik : i + k < seq.length := by omega
      simp only [slideIter, hih]
      have hwin : (seq.drop i).take k
          = seq[i] :: ((seq.drop (i + 1)).take (k - 1)) := by
        rw [List.drop_eq_getElem_cons hi]
        cases k with
        | zero => omega
        | succ k0 =>
            rw [List.take_succ_cons]
            simp only [Nat.add_sub_cancel]
      rw [hwin]
      have hgi : seq.getD i 0 = seq[i] := List.getD_eq_getElem seq 0 hi
      rw [hgi, roll_hash_eq_new]
      congr 1
      have htake : (seq.drop (i + 1)).take ((k - 1) + 1)
          = (seq.drop (i + 1)).take (k - 1)
            ++ ((seq.drop (i + 1))[(k - 1)]?).toList := List.take_succ
      have hk1 : (k - 1) + 1 = k := by omega
      rw [hk1] at htake
      have hgetq : (seq.drop (i + 1))[(k - 1)]? = some seq[i + k] := by
        rw [List.getElem?_drop]
        have he : i + 1 + (k - 1) = i + k := by omega
        rw [he]
        exact List.getElem?_eq_getElem hik
      rw [hgetq] at htake
      have hgd : seq.getD (i + k) 0 = seq[i + k] :=
        List.getD_eq_getElem seq 0 hik
      rw [hgd, htake]
      simp

/-- C5: on any non-empty window, one `roll_hash` (leftmost byte out,
new byte in) produces EXACTLY the state of a fresh init on the shifted
window — the same `s`, `ss` and width, hence the same digest — and,
iterating, byte-by-byte sliding across a sequence reproduces the
fresh-init state and digest of the window at every in-range position,
all under the wrapping 32-bit arithmetic. -/
theorem roll_equals_fresh_init :
    (∀ (b c : Nat) (rest : List Nat),
        (Rollsum.new (b :: rest)).roll_hash (some c) b
          = Rollsum.new (rest ++ [c])) ∧
    (∀ (seq : List Nat) (k i : Nat), 0 < k → i + k ≤ seq.length →
        slideIter seq k i = Rollsum.new ((seq.drop i).take k) ∧
        (slideIter seq k i).digest
          = (Rollsum.new ((seq.drop i).take k)).digest) :=
  ⟨fun b c rest => roll_hash_eq_new b rest c,
   fun seq k i hk hik =>
     ⟨slideIter_eq_new seq k hk i hik,
      by rw [slideIter_eq_new seq k hk i hik]⟩⟩

/-- Witness for `roll_equals_fresh_init`: a concrete single roll and a
concrete two-step slide. -/
theorem roll_equals_fresh_init_witness :
    (Rollsum.new [1, 2, 3]).roll_hash (some 9) 1 = Rollsum.new [2, 3, 9] ∧
    slideIter [1, 2, 3, 4] 2 2 = Rollsum.new [3, 4] :=
  ⟨roll_equals_fresh_init.1 1 9 [2, 3],
   (roll_equals_fresh_init.2 [1, 2, 3, 4] 2 2 (by decide) (by decide)).1⟩

/-! ## Exact block and size accounting of `generate` (for C3/C10) -/

/-- With `read_size = 0` the chunk loop exits immediately. -/
theorem generateGo_rsz_zero (H : List Nat → List Nat) (sig : Signature)
    (buf : List Nat) (rs : Rollsum) (rem : List Nat) :
    ∀ fuel, generateGo H sig buf rs 0 rem fuel = sig := by
  intro fuel
  cases fuel <;> simp [generateGo]

/-- Dropping one block's worth of input shifts the ceiling-division
chunk count by exactly one step. -/
theorem ceil_div_shift (n b : Nat) (hb : 0 < b) (hn : 0 < n) :
    (n - b + b - 1) / b = (n - 1) / b := by
  rcases Nat.lt_or_ge n b with h | h
  · rw [show n - b = 0 by omega, Nat.zero_add,
      Nat.div_eq_of_lt (by omega), Nat.div_eq_of_lt (by omega)]
  · congr 1
    omega

/-- `⌈n / b⌉ = (n - 1) / b + 1` for positive `n`. -/
theorem ceil_div_succ (n b : Nat) (hb : 0 < b) (hn : 0 < n) :
    (n + b - 1) / b = (n - 1) / b + 1 := by
  rw [show n + b - 1 = (n - 1) + b by omega, Nat.add_div_right _ hb]

/-- Exact `blocks` and `file_size` accounting of the chunk loop: one
block per chunk, and the sum of all read sizes. -/
theorem generateGo_counts (H : List Nat → List Nat) :
    ∀ (fuel : Nat) (sig : Signature) (buf : List Nat) (rs : Rollsum)
      (rsz : Nat) (rem : List Nat),
      rem.length < fuel →
      0 < rsz →
      0 < buf.length →
      sig.blocks + 1 + (rem.length + buf.length - 1) / buf.length ≤ 65535 →
      sig.file_size + rsz + rem.length ≤ 65535 →
      (generateGo H sig buf rs rsz rem fuel).blocks
          = sig.blocks + 1 + (rem.length + buf.length - 1) / buf.length ∧
      (generateGo H sig buf rs rsz rem fuel).file_size
          = sig.file_size + rsz + rem.length := by
  intro fuel
  induction fuel with
  | zero => intro sig buf rs rsz rem hfuel; omega
  | succ fuel ih =>
      intro sig buf rs rsz rem hfuel hrsz hbuf hbb hfs
      have hU : U16 = 65536 := rfl
      have hb2 : sig.blocks + 1 ≤ 65535 :=
        Nat.le_trans (Nat.le_add_right _ _) hbb
      have hb1 : add16 sig.blocks 1 = sig.blocks + 1 :=
        add16_eq _ _ (by omega)
      have hf1 : add16 sig.file_size (rsz % U16) = sig.file_size + rsz := by
        rw [Nat.mod_eq_of_lt (by omega : rsz < U16)]
        exact add16_eq _ _ (by omega)
      simp only [generateGo]
      rw [if_neg (by omega)]
      have hr21 : (readBuf buf rem).2.1.length = rem.length - buf.length := by
        simp [readBuf]
      have hr22 : (readBuf buf rem).2.2 = min buf.length rem.length := by
        simp [readBuf]
      rcases Nat.eq_zero_or_pos rem.length with hrem0 | hrempos
      · have hrem : rem = [] := List.eq_nil_of_length_eq_zero hrem0
        subst hrem
        have h22 : (readBuf buf []).2.2 = 0 := by simp [readBuf]
        rw [h22, generateGo_rsz_zero]
        constructor
        · show add16 sig.blocks 1 = _
          rw [hb1, Nat.div_eq_of_lt (by simp; omega)]
        · show add16 sig.file_size (rsz % U16) = _
          rw [hf1]
          simp
      · have h := ih
          { sig with
            chunk_hashes := insertHash sig.chunk_hashes rs.digest
              { block_index := sig.blocks, hash := H buf },
            blocks := add16 sig.blocks 1,
            file_size := add16 sig.file_size (rsz % U16) }
          (readBuf buf rem).1 ((rs.batch_roll (readBuf buf rem).1).1)
          (readBuf buf rem).2.2 (readBuf buf rem).2.1
          (by rw [hr21]; omega)
          (by rw [hr22]; omega)
          (by rw [readBuf_length]; omega)
          (by
            show add16 sig.blocks 1 + 1 + _ ≤ 65535
            rw [hb1, hr21, readBuf_length, ceil_div_shift _ _ hbuf hrempos]
            have hcs := ceil_div_succ rem.length buf.length hbuf hrempos
            omega)
          (by
            show add16 sig.file_size (rsz % U16) + _ + _ ≤ 65535
            rw [hf1, hr22, hr21]
            omega)
        rw [h.1, h.2]
        constructor
        · show add16 sig.blocks 1 + 1 + _ = _
          rw [hb1, hr21, readBuf_length, ceil_div_shift _ _ hbuf hrempos,
            ceil_div_succ _ _ hbuf hrempos]
          omega
        · show add16 sig.file_size (rsz % U16) + _ + _ = _
          rw [hf1, hr22, hr21]
          omega

/-- `Signature::generate` produces exactly `⌈len / block_size⌉` blocks
and records the exact input length, for inputs within the 16-bit
range. -/
theorem generate_counts (H : List Nat → List Nat) (bs : Nat)
    (input : List Nat) (hbs : 0 < bs) (hlen : input.length ≤ 65535) :
    ((Signature.new bs).generate H input).blocks
        = (input.length + bs - 1) / bs ∧
    ((Signature.new bs).generate H input).file_size = input.length := by
  simp only [Signature.generate]
  have hbsnew : (Signature.new bs).block_size = bs := rfl
  have hrsz : (readBuf (List.replicate (Signature.new bs).block_size 0)
      input).2.2 = min bs input.length := by
    simp [readBuf, Signature.new]
  have hrem : (readBuf (List.replicate (Signature.new bs).block_size 0)
      input).2.1.length = input.length - bs := by
    simp [readBuf, Signature.new]
  rcases Nat.eq_zero_or_pos input.length with h0 | hpos
  · have hnil : input = [] := List.eq_nil_of_length_eq_zero h0
    subst hnil
    rw [if_pos (by rw [hrsz]; simp)]
    rw [show (readBuf (List.replicate (Signature.new bs).block_size 0)
      ([] : List Nat)).2.2 = 0 by simp [readBuf]]
    rw [generateGo_rsz_zero]
    constructor
    · show (0 : Nat) = (([] : List Nat).length + bs - 1) / bs
      rw [List.length_nil, Nat.zero_add, Nat.div_eq_of_lt (by omega)]
    · rfl
  · rw [if_neg (by rw [hrsz]; omega)]
    have h := generateGo_counts H (input.length + 1) (Signature.new bs)
      (readBuf (List.replicate (Signature.new bs).block_size 0) input).1
      (Rollsum.new
        (readBuf (List.replicate (Signature.new bs).block_size 0) input).1)
      (readBuf (List.replicate (Signature.new bs).block_size 0) input).2.2
      (readBuf (List.replicate (Signature.new bs).block_size 0) input).2.1
      (by rw [hrem]; omega)
      (by rw [hrsz]; omega)
      (by rw [readBuf_length, List.length_replicate, hbsnew]; omega)
      (by
        rw [hrem, readBuf_length, List.length_replicate, hbsnew]
        show 0 + 1 + _ ≤ 65535
        rw [ceil_div_shift _ _ hbs hpos]
        have hd := Nat.div_le_self (input.length - 1) bs
        omega)
      (by
        rw [hrsz, hrem]
        show 0 + _ + _ ≤ 65535
        omega)
    rw [h.1, h.2, hrem, hrsz, readBuf_length, List.length_replicate, hbsnew]
    constructor
    · show 0 + 1 + _ = _
      rw [ceil_div_shift _ _ hbs hpos, ceil_div_succ _ _ hbs hpos]
      omega
    · show 0 + _ + _ = _
      omega

/-- Consequences of the exact accounting used by the scan-level
theorems: the block counter fits `u16`, all-but-the-last blocks cover
less than the whole input, and a nonzero block count means a nonzero
input. -/
theorem generate_facts (H : List Nat → List Nat) (bs : Nat)
    (input : List Nat) (hbs : 0 < bs) (hlen : input.length ≤ 65535) :
    ((Signature.new bs).generate H input).blocks ≤ 65535 ∧
    (((Signature.new bs).generate H input).blocks - 1) * bs
        ≤ input.length - 1 ∧
    (0 < ((Signature.new bs).generate H input).blocks → 0 < input.length) ∧
    ((Signature.new bs).generate H input).file_size = input.length := by
  obtain ⟨hb, hf⟩ := generate_counts H bs input hbs hlen
  rcases Nat.eq_zero_or_pos input.length with h0 | hpos
  · have hz : (input.length + bs - 1) / bs = 0 := by
      rw [h0, Nat.zero_add]
      exact Nat.div_eq_of_lt (by omega)
    rw [hb, hf, hz, h0]
    refine ⟨by omega, by omega, ?_, rfl⟩
    intro hlt
    exact absurd hlt (by omega)
  · rw [hb, hf, ceil_div_succ _ _ hbs hpos]
    refine ⟨?_, ?_, fun _ => hpos, rfl⟩
    · have hd := Nat.div_le_self (input.length - 1) bs
      omega
    · simp only [Nat.add_sub_cancel]
      exact Nat.div_mul_le_self _ _

/-! ## Delta positivity through the scan (C10) -/

/-- The scan invariant: `consumed_block_index` is `-1` or a valid block
ordinal of the signature, and every delta emitted so far has a positive
`bytes` field. -/
def ScanInv (sig : Signature) (st : ScanState) : Prop :=
  (st.consumed_block_index = -1 ∨
    ∃ n : Nat, st.consumed_block_index = (n : Int) ∧ n < sig.blocks) ∧
  ∀ d ∈ st.deltas, 0 < d.len

/-- Through the match branch, `consumed_block_index` becomes the
matched index and every delta stays positive: the skipped-blocks delete
is guarded by `advanced_blocks > 0` and cannot wrap, and the pending
add is flushed only when its byte count is positive. -/
theorem matchedStep_inv (bs : Nat) (nw : List Nat) (sig : Signature)
    (st st' : ScanState) (m : Nat)
    (hblocks : sig.blocks ≤ 65535)
    (hmul : (sig.blocks - 1) * bs < U16)
    (hbs : 0 < bs)
    (hmlt : m < sig.blocks)
    (hgt : st.consumed_block_index < (m : Int))
    (hcons : st.consumed_block_index = -1 ∨
      ∃ n : Nat, st.consumed_block_index = (n : Int) ∧ n < sig.blocks)
    (hds : ∀ d ∈ st.deltas, 0 < d.len)
    (h : matchedStep bs nw st m = StepResult.next st' ∨
         matchedStep bs nw st m = StepResult.done st') :
    st'.consumed_block_index = (m : Int) ∧ ∀ d ∈ st'.deltas, 0 < d.len := by
  have hU : U16 = 65536 := rfl
  have hadv_le : sub16 m (i32ToU16 (st.consumed_block_index + 1)) ≤ m := by
    rcases hcons with hc | ⟨n, hc, hnlt⟩
    · rw [hc]
      have h0 : i32ToU16 ((-1 : Int) + 1) = 0 := by decide
      rw [h0, sub16_eq m 0 (Nat.zero_le _) (by omega)]
      omega
    · rw [hc]
      have hnm : n + 1 ≤ m := by
        rw [hc] at hgt
        exact_mod_cast hgt
      have hcast : (n : Int) + 1 = ((n + 1 : Nat) : Int) := by push_cast; ring
      rw [hcast, i32ToU16_natCast _ (by omega),
        sub16_eq m (n + 1) hnm (by omega)]
      omega
  have hdelpos : 0 < sub16 m (i32ToU16 (st.consumed_block_index + 1)) →
      0 < mul16 (sub16 m (i32ToU16 (st.consumed_block_index + 1)))
            (bs % U16) := by
    intro hpos
    rw [mul16_mod_right, mul16_eq _ _ (by
      have h1 : sub16 m (i32ToU16 (st.consumed_block_index + 1)) * bs
          ≤ (sig.blocks - 1) * bs :=
        Nat.mul_le_mul_right bs (by omega)
      omega)]
    exact Nat.mul_pos hpos hbs
  simp only [matchedStep] at h
  rcases h with h | h <;>
  · repeat' split at h
    all_goals cases h
    all_goals refine ⟨rfl, fun d hd => ?_⟩
    all_goals
      first
        | exact hds d hd
        | (rcases List.mem_append.mp hd with hd2 | hd2
           · first
               | exact hds d hd2
               | (rcases List.mem_append.mp hd2 with hd3 | hd3
                  · exact hds d hd3
                  · rw [List.mem_singleton.mp hd3]
                    exact hdelpos (by assumption))
           · rw [List.mem_singleton.mp hd2]
             first
               | exact hdelpos (by assumption)
               | (show 0 < st.new_bytes.bytes
                  assumption))

/-- One scan iteration preserves the scan invariant. -/
theorem scanStep_inv (H : List Nat → List Nat) (bs : Nat) (sig : Signature)
    (nw : List Nat) (st st' : ScanState)
    (hwf : BucketsWF sig)
    (hblocks : sig.blocks ≤ 65535)
    (hmul : (sig.blocks - 1) * bs < U16)
    (hbs : 0 < bs)
    (hinv : ScanInv sig st)
    (h : scanStep H bs sig nw st = StepResult.next st' ∨
         scanStep H bs sig nw st = StepResult.done st') :
    ScanInv sig st' := by
  unfold scanStep at h
  split at h
  next shl heq =>
    split at h
    next m heqm =>
      obtain ⟨b, hbmem, hbi, hbh, hgt⟩ :=
        findStrongMatch_mem (H st.window) _ shl m heqm
      obtain ⟨kv, hkv, hkv2⟩ := get_chunk_map_mem sig _ shl heq
      have hmlt : m < sig.blocks := by
        have hlt := (hwf kv hkv).1 b (by rw [hkv2]; exact hbmem)
        rw [hbi] at hlt
        exact hlt
      have hmi := matchedStep_inv bs nw sig st st' m hblocks hmul hbs hmlt
        hgt hinv.1 hinv.2 h
      exact ⟨Or.inr ⟨m, hmi.1, hmlt⟩, hmi.2⟩
    next => rcases h with h | h <;> cases h
  next =>
    have hp := noMatchStep_preserves nw st st' h
    exact ⟨by rw [hp.1]; exact hinv.1, by rw [hp.2]; exact hinv.2⟩

/-- The whole scan loop preserves the scan invariant. -/
theorem scanLoop_inv (H : List Nat → List Nat) (bs : Nat) (sig : Signature)
    (nw : List Nat)
    (hwf : BucketsWF sig)
    (hblocks : sig.blocks ≤ 65535)
    (hmul : (sig.blocks - 1) * bs < U16)
    (hbs : 0 < bs) :
    ∀ (fuel : Nat) (st st' : ScanState),
      scanLoop H bs sig nw fuel st = some st' →
      ScanInv sig st → ScanInv sig st' := by
  intro fuel
  induction fuel with
  | zero => intro st st' h; simp [scanLoop] at h
  | succ fuel ih =>
      intro st st' h hinv
      simp only [scanLoop] at h
      cases hstep : scanStep H bs sig nw st with
      | next st1 =>
          simp only [hstep] at h
          exact ih st1 st' h
            (scanStep_inv H bs sig nw st st1 hwf hblocks hmul hbs hinv
              (Or.inl hstep))
      | done st1 =>
          simp only [hstep] at h
          cases h
          exact scanStep_inv H bs sig nw st _ hwf hblocks hmul hbs hinv
            (Or.inr hstep)
      | stuck =>
          simp only [hstep] at h
          cases h

/-- Characterization of the finalization code (lib.rs lines 131-143)
for a positive block size: with `consumed_block_index = -1` the trailing
delete is never emitted (the `u16` cast turns the guard false); with
`consumed_block_index = n` it is emitted exactly when `n + 1 < blocks`,
anchored at `(n+1)*block_size - 1` and sized
`file_size -₁₆ (n+1)*block_size`. -/
theorem finalize_spec (bs : Nat) (sig : Signature) (st : ScanState)
    (hbs : 0 < bs) (hblocks : sig.blocks ≤ 65535) :
    (st.consumed_block_index = -1 →
      finalize bs sig st
        = if st.new_bytes.bytes > 0 then st.deltas ++ [Delta.Add st.new_bytes]
          else st.deltas) ∧
    (∀ n : Nat, st.consumed_block_index = (n : Int) → n < sig.blocks →
      (n + 1 < sig.blocks →
        finalize bs sig st
          = (if st.new_bytes.bytes > 0
              then st.deltas ++ [Delta.Add st.new_bytes] else st.deltas)
            ++ [Delta.Delete
                 { byte_index := ((n + 1) * bs - 1) % U16,
                   bytes := sub16 sig.file_size (((n + 1) * bs) % U16) }]) ∧
      (sig.blocks ≤ n + 1 →
        finalize bs sig st
          = if st.new_bytes.bytes > 0
              then st.deltas ++ [Delta.Add st.new_bytes] else st.deltas)) := by
  have hU : U16 = 65536 := rfl
  constructor
  · intro hc
    unfold finalize
    rw [if_neg]
    rw [hc, i32ToU16_neg_one]
    have := sub16_lt sig.get_blocks 1
    omega
  · intro n hc hnlt
    have hblk1 : 1 ≤ sig.blocks := by omega
    have hsub : sub16 sig.get_blocks 1 = sig.blocks - 1 :=
      sub16_eq _ _ hblk1 (by show sig.blocks < U16; omega)
    have hi32 : i32ToU16 (st.consumed_block_index) = n := by
      rw [hc]; exact i32ToU16_natCast n (by omega)
    constructor
    · intro hlt
      have hcond : sub16 sig.get_blocks 1 > i32ToU16 st.consumed_block_index := by
        rw [hsub, hi32]; omega
      have hb1 : usizeSubOneU16 ((st.consumed_block_index + 1).toNat * bs)
          = ((n + 1) * bs - 1) % U16 := by
        rw [hc]
        have ht : ((n : Int) + 1).toNat = n + 1 := by omega
        rw [ht]
        unfold usizeSubOneU16
        rw [if_neg (Nat.mul_ne_zero (by omega) (by omega))]
      have hb2 : sub16 sig.get_file_size
            (mul16 (i32ToU16 (st.consumed_block_index + 1)) (bs % U16))
          = sub16 sig.file_size (((n + 1) * bs) % U16) := by
        rw [hc]
        have hcast : (n : Int) + 1 = ((n + 1 : Nat) : Int) := by push_cast; ring
        rw [hcast, i32ToU16_natCast _ (by omega), mul16_mod_right]
        rfl
      simp only [finalize]
      rw [if_pos hcond, hb1, hb2]
    · intro hge
      have hcond : ¬(sub16 sig.get_blocks 1 > i32ToU16 st.consumed_block_index) := by
        rw [hsub, hi32]; omega
      simp only [finalize]
      rw [if_neg hcond]

/-- The initial scan state satisfies the scan invariant. -/
theorem initScanState_inv (sig : Signature) (bs : Nat) (nw : List Nat) :
    ScanInv sig (initScanState bs nw) :=
  ⟨Or.inl rfl, by intro d hd; simp [initScanState] at hd⟩

/-- C10: every delta a terminating `check_diffs` run emits has a
strictly positive `bytes` length: the skipped-blocks delete is emitted
only when at least one whole block was skipped, a pending add is
flushed only when its accumulated byte count is nonzero, and the
trailing delete (when emitted) covers at least one byte. -/
theorem check_diffs_deltas_positive (H : List Nat → List Nat) (bs : Nat)
    (old_buf nw : List Nat) (ds : List Delta)
    (hbs : 0 < bs) (hold : old_buf.length ≤ 65535)
    (h : check_diffs H bs old_buf nw = some ds) :
    ∀ d ∈ ds, 0 < d.len := by
  have hU : U16 = 65536 := rfl
  obtain ⟨hble, hmul0, hpos0, hfs⟩ := generate_facts H bs old_buf hbs hold
  have hwf := generate_buckets H bs old_buf hold
  simp only [check_diffs] at h
  rcases Option.map_eq_some'.mp h with ⟨st1, hrun, hds⟩
  subst hds
  have hmul : (((Signature.new bs).generate H old_buf).blocks - 1) * bs
      < U16 := by omega
  obtain ⟨hcons, hdpos⟩ := scanLoop_inv H bs
    ((Signature.new bs).generate H old_buf) nw hwf hble hmul hbs _ _ _ hrun
    (initScanState_inv _ bs nw)
  have hflush : ∀ d ∈ (if st1.new_bytes.bytes > 0
      then st1.deltas ++ [Delta.Add st1.new_bytes] else st1.deltas),
      0 < d.len := by
    intro d hd
    by_cases hnb : st1.new_bytes.bytes > 0
    · rw [if_pos hnb] at hd
      rcases List.mem_append.mp hd with hd | hd
      · exact hdpos d hd
      · rw [List.mem_singleton.mp hd]; exact hnb
    · rw [if_neg hnb] at hd
      exact hdpos d hd
  have hfin := finalize_spec bs ((Signature.new bs).generate H old_buf) st1
    hbs hble
  rcases hcons with hc | ⟨n, hc, hnlt⟩
  · rw [hfin.1 hc]
    exact hflush
  · have hfin2 := hfin.2 n hc hnlt
    rcases Nat.lt_or_ge (n + 1) ((Signature.new bs).generate H old_buf).blocks
      with hlt | hge
    · rw [hfin2.1 hlt]
      intro d hd
      rcases List.mem_append.mp hd with hd | hd
      · exact hflush d hd
      · rw [List.mem_singleton.mp hd]
        show 0 < sub16 ((Signature.new bs).generate H old_buf).file_size
          (((n + 1) * bs) % U16)
        have h1 : (n + 1) * bs
            ≤ (((Signature.new bs).generate H old_buf).blocks - 1) * bs :=
          Nat.mul_le_mul_right bs (by omega)
        have hlen1 : 0 < old_buf.length := hpos0 (by omega)
        rw [Nat.mod_eq_of_lt (by omega), sub16_eq _ _ (by omega) (by omega)]
        omega
    · rw [hfin2.2 hge]
      exact hflush

/-- Witness for `check_diffs_deltas_positive`: both deltas of a
concrete run at `block_size = 2` have positive length. -/
theorem check_diffs_deltas_positive_witness :
    0 < (Delta.Add { byte_index := 2, bytes := 2, content := [120] }).len ∧
    0 < (Delta.Delete { byte_index := 1, bytes := 2 }).len :=
  ⟨check_diffs_deltas_positive strongHash 2 [97, 98, 99, 100] [97, 98, 120]
    [Delta.Add { byte_index := 2, bytes := 2, content := [120] },
     Delta.Delete { byte_index := 1, bytes := 2 }]
    (by decide) (by decide) (by decide) _ (by decide),
   check_diffs_deltas_positive strongHash 2 [97, 98, 99, 100] [97, 98, 120]
    [Delta.Add { byte_index := 2, bytes := 2, content := [120] },
     Delta.Delete { byte_index := 1, bytes := 2 }]
    (by decide) (by decide) (by decide) _ (by decide)⟩

/-- C3 (amended): at the end of every terminating scan ending in state
`st1`, after flushing a non-empty pending add, the trailing delete is
emitted iff `(blocks - 1 : u16) > (consumed_block_index as u16)` — in
particular NEVER when `consumed_block_index` is still `-1` (the cast
turns `-1` into `65535`), even though unmatched old blocks exist — and
when it is emitted (for `consumed_block_index = n` with
`n + 1 < blocks`) it covers exactly the combined byte length of the
unconsumed old blocks, `old.length - (n+1)*block_size`, but is anchored
at `(n+1)*block_size - 1`, one byte BEFORE the position just after the
last consumed block. -/
theorem check_diffs_trailing_delete_amended (H : List Nat → List Nat)
    (bs : Nat) (old_buf nw : List Nat) (st1 : ScanState)
    (hbs : 0 < bs) (hold : old_buf.length ≤ 65535)
    (hrun : scanLoop H bs ((Signature.new bs).generate H old_buf) nw
        (nw.length + 2) (initScanState bs nw) = some st1) :
    (st1.consumed_block_index = -1 →
      check_diffs H bs old_buf nw
        = some (if st1.new_bytes.bytes > 0
            then st1.deltas ++ [Delta.Add st1.new_bytes] else st1.deltas)) ∧
    (∀ n : Nat, st1.consumed_block_index = (n : Int) →
      (n + 1 < ((Signature.new bs).generate H old_buf).blocks →
        check_diffs H bs old_buf nw
          = some ((if st1.new_bytes.bytes > 0
              then st1.deltas ++ [Delta.Add st1.new_bytes] else st1.deltas)
            ++ [Delta.Delete
                 { byte_index := (n + 1) * bs - 1,
                   bytes := old_buf.length - (n + 1) * bs }])) ∧
      (((Signature.new bs).generate H old_buf).blocks ≤ n + 1 →
        check_diffs H bs old_buf nw
          = some (if st1.new_bytes.bytes > 0
              then st1.deltas ++ [Delta.Add st1.new_bytes] else st1.deltas))) := by
  have hU : U16 = 65536 := rfl
  obtain ⟨hble, hmul0, hpos0, hfs⟩ := generate_facts H bs old_buf hbs hold
  have hwf := generate_buckets H bs old_buf hold
  have hmul : (((Signature.new bs).generate H old_buf).blocks - 1) * bs
      < U16 := by omega
  obtain ⟨hcons, _⟩ := scanLoop_inv H bs
    ((Signature.new bs).generate H old_buf) nw hwf hble hmul hbs _ _ _ hrun
    (initScanState_inv _ bs nw)
  have hfin := finalize_spec bs ((Signature.new bs).generate H old_buf) st1
    hbs hble
  have hcd : check_diffs H bs old_buf nw
      = some (finalize bs ((Signature.new bs).generate H old_buf) st1) := by
    simp only [check_diffs, hrun, Option.map_some']
  refine ⟨?_, ?_⟩
  · intro hc
    rw [hcd, hfin.1 hc]
  · intro n hc
    have hnlt : n < ((Signature.new bs).generate H old_buf).blocks := by
      rcases hcons with h1 | ⟨n2, h2, hlt2⟩
      · rw [hc] at h1
        omega
      · rw [hc] at h2
        have hnn : n = n2 := by exact_mod_cast h2
        omega
    have hfin2 := hfin.2 n hc hnlt
    refine ⟨?_, ?_⟩
    · intro hlt
      have h1 : (n + 1) * bs
          ≤ (((Signature.new bs).generate H old_buf).blocks - 1) * bs :=
        Nat.mul_le_mul_right bs (by omega)
      have hkey : (n + 1) * bs ≤ old_buf.length - 1 := Nat.le_trans h1 hmul0
      have hkey2 : (n + 1) * bs < U16 :=
        Nat.lt_of_le_of_lt
          (Nat.le_trans hkey (Nat.sub_le_sub_right hold 1)) (by decide)
      have hbi : ((n + 1) * bs - 1) % U16 = (n + 1) * bs - 1 :=
        Nat.mod_eq_of_lt (Nat.lt_of_le_of_lt (Nat.sub_le _ 1) hkey2)
      have hby : sub16 ((Signature.new bs).generate H old_buf).file_size
            (((n + 1) * bs) % U16) = old_buf.length - (n + 1) * bs := by
        rw [Nat.mod_eq_of_lt hkey2, hfs,
          sub16_eq _ _ (Nat.le_trans hkey (Nat.sub_le _ _))
            (Nat.lt_of_le_of_lt hold (by decide))]
      rw [hcd, hfin2.1 hlt, hbi, hby]
    · intro hge
      rw [hcd, hfin2.2 hge]

/-- Witness for `check_diffs_trailing_delete_amended`: the concrete run
with old `"aaaabbbb"`, new `"aaaa"`, `block_size = 4`, whose scan ends
with `consumed_block_index = 0` and whose trailing delete is
`Delete{byte_index := 3, bytes := 4}`. -/
theorem check_diffs_trailing_delete_amended_witness :
    check_diffs strongHash 4 [97, 97, 97, 97, 98, 98, 98, 98]
        [97, 97, 97, 97] =
      some [Delta.Delete { byte_index := 3, bytes := 4 }] :=
  ((check_diffs_trailing_delete_amended strongHash 4
      [97, 97, 97, 97, 98, 98, 98, 98] [97, 97, 97, 97]
      { window := [97, 97, 97, 97], start_win := 0, end_win := 3,
        deltas := [],
        new_bytes := { byte_index := 4, bytes := 0, content := [97] },
        consumed_block_index := 0,
        rs := { s := 388, ss := 970, block_size := 4 } }
      (by decide) (by decide) (by decide)).2 0 (by decide)).1 (by decide)
